import Mathlib

/-!
Verification of the TokenFlow matching core.

This file gives a shallow embedding of the matching engine of the
TokenFlow repository (src/tokenizer/tokenizer.ts, src/tokenizer/lexicon.ts)
and proves properties of it.  JavaScript numbers are modelled as `ℚ` for
scores and `ℤ` for fingerprints and labels; JavaScript `Set` is modelled
as `Finset ℤ`; JavaScript objects used as string-keyed maps are modelled
as association lists in key-insertion order.

Parts of the repository that tokenizer.ts and lexicon.ts import but whose
sources are not present (src/graph.ts, src/matchers.ts,
src/number-parser.ts, src/tokenizer/term-model.ts) are modelled from the
specification; each such definition carries a doc comment starting with
`Modelled from the spec:`.
-/

namespace TokenFlow

/-- Result record of a matcher, from src/matchers.ts (declaration only;
the fields are those listed in the spec and destructured by
`Tokenizer.score`).  The source field `match` is called `match_` here
because `match` is a Lean keyword. -/
structure DiffResults where
  match_ : List ℤ
  cost : ℕ
  leftmostA : ℕ
  rightmostA : ℤ
  alignments : ℕ
  commonTerms : Finset ℤ
  deriving DecidableEq

/-- Matcher function type, from src/matchers.ts: it receives the query,
the alias hashes, the alias's downstream predicate and the term model's
token-hash predicate, and returns alignment statistics. -/
def Matcher : Type := List ℤ → List ℤ → (ℤ → Bool) → (ℤ → Bool) → DiffResults

/-- A registered alias as held by the tokenizer
(interface TokenizerAlias in tokenizer.ts).  `token` is the opaque label
modelled as an integer. -/
structure TokenizerAlias where
  token : ℤ
  text : String
  terms : List String
  stemmed : List String
  hashes : List ℤ
  matcher : Matcher
  isDownstreamTerm : ℤ → Bool

/-- A single number-parser result `{value, length}`
(NumberMatch in src/number-parser.ts, declaration only). -/
structure NumberMatch where
  value : ℤ
  length : ℕ
  deriving DecidableEq

/-- A weighted lattice edge (Edge in src/graph.ts, declaration only: the
fields are exactly those constructed by `Tokenizer.generateGraph`). -/
structure Edge where
  score : ℚ
  length : ℤ
  label : ℤ
  isNumber : Bool
  deriving DecidableEq

/-- The `matchFactor` of Tokenizer.score: with `l = rightmostA + 1`,
`(l - cost)/l` when `l > cost`, else `1/(l + cost)`. -/
def matchFactor (diff : DiffResults) : ℚ :=
  let l : ℤ := diff.rightmostA + 1
  if l > (diff.cost : ℤ) then ((l : ℚ) - (diff.cost : ℚ)) / (l : ℚ)
  else 1 / ((l : ℚ) + (diff.cost : ℚ))

/-- The `commonFactor` of Tokenizer.score: `commonTerms.size / match.length`. -/
def commonFactor (diff : DiffResults) : ℚ :=
  (diff.commonTerms.card : ℚ) / (diff.match_.length : ℚ)

/-- The `positionFactor` of Tokenizer.score:
`max(match.length - leftmostA, 0) / match.length`. -/
def positionFactor (diff : DiffResults) : ℚ :=
  max ((diff.match_.length : ℚ) - (diff.leftmostA : ℚ)) 0 / (diff.match_.length : ℚ)

/-- The `lengthFactor` of Tokenizer.score: `match.length`. -/
def lengthFactor (diff : DiffResults) : ℚ :=
  (diff.match_.length : ℚ)

/-- The base score of Tokenizer.score before the rejection rules:
`matchFactor * commonFactor * positionFactor * lengthFactor`. -/
def baseScore (diff : DiffResults) : ℚ :=
  matchFactor diff * commonFactor diff * positionFactor diff * lengthFactor diff

/-- The set `commonDownstreamWords` of Tokenizer.score: the common terms
that satisfy the downstream predicate. -/
def commonDownstreamWords (isDownstreamTerm : ℤ → Bool) (diff : DiffResults) : Finset ℤ :=
  diff.commonTerms.filter (fun h => isDownstreamTerm h = true)

/-- The `downstreamWordFactor` of Tokenizer.score:
`(commonTerms.size - commonDownstreamWords.size) / commonTerms.size`.
In the source it is computed and then only written to the debug log. -/
def downstreamWordFactor (isDownstreamTerm : ℤ → Bool) (diff : DiffResults) : ℚ :=
  ((diff.commonTerms.card : ℚ) - ((commonDownstreamWords isDownstreamTerm diff).card : ℚ)) /
    (diff.commonTerms.card : ℚ)

/-- Tokenizer.score (tokenizer.ts lines 150-243).  Returns the pair
`{score, length}`.  The `query` argument is used by the source only for
debug logging; `pfx` is the source's `prefix` parameter.  The
`downstreamWordFactor` computed by the source is bound here as in the
source but, as in the source, does not flow into the returned value. -/
def score (query pfx : List ℤ) (isDownstreamTerm : ℤ → Bool) (diff : DiffResults) : ℚ × ℤ :=
  let s0 : ℚ := baseScore diff
  let _dwf : ℚ := downstreamWordFactor isDownstreamTerm diff
  let s1 : ℚ :=
    if 0 < diff.commonTerms.card ∧
        diff.commonTerms.card = (commonDownstreamWords isDownstreamTerm diff).card ∧
        diff.commonTerms.card ≠ pfx.length then -1 else s0
  let s2 : ℚ := if s1 ≤ (1 / 100 : ℚ) then -1 else s1
  (s2, diff.rightmostA + 1)

/-! ## The tokenizer state and `addItem`

JavaScript objects used as integer-keyed maps (`hashToText`,
`hashToFrequency`, `postings`) are modelled as association lists in
key-insertion order, mirroring object key order. -/

/-- Lookup in an association list: the value at the first matching key,
as JavaScript property lookup. -/
def alookup {α : Type} (l : List (ℤ × α)) (k : ℤ) : Option α :=
  (l.find? (fun p => p.1 = k)).map (fun p => p.2)

/-- `postings[hash].push(id)` when the key is present, otherwise
`postings[hash] = [id]` (tokenizer.ts lines 126-131). -/
def addPosting (l : List (ℤ × List ℕ)) (k : ℤ) (id : ℕ) : List (ℤ × List ℕ) :=
  match l with
  | [] => [(k, [id])]
  | (k', v) :: rest =>
    if k' = k then (k', v ++ [id]) :: rest else (k', v) :: addPosting rest k id

/-- `hashToFrequency[hash]++` when present, otherwise `= 1`
(tokenizer.ts lines 117-122). -/
def bumpFrequency (l : List (ℤ × ℕ)) (k : ℤ) : List (ℤ × ℕ) :=
  match l with
  | [] => [(k, 1)]
  | (k', v) :: rest =>
    if k' = k then (k', v + 1) :: rest else (k', v) :: bumpFrequency rest k

/-- Record stem text on first sight: `hashToText[hash] = stemmed[index]`
only when the key is absent (tokenizer.ts lines 109-111). -/
def addText (l : List (ℤ × String)) (k : ℤ) (txt : String) : List (ℤ × String) :=
  if (alookup l k).isSome then l else l ++ [(k, txt)]

/-- The tokenizer's owned state (class Tokenizer, tokenizer.ts).  The
term model is represented by the only member the tokenizer reads from it,
`isTokenHash`; the number parser (src/number-parser.ts is absent) is
represented abstractly by the function sending a fingerprint tail to the
list of `{value, length}` matches its `parse` appends to `output`. -/
structure TokenizerState where
  isTokenHash : ℤ → Bool
  numberParser : List ℤ → List NumberMatch
  aliases : List TokenizerAlias
  hashToText : List (ℤ × String)
  hashToFrequency : List (ℤ × ℕ)
  postings : List (ℤ × List ℕ)

/-- A freshly constructed tokenizer: empty alias list and empty maps. -/
def initTokenizer (itk : ℤ → Bool) (np : List ℤ → List NumberMatch) : TokenizerState :=
  { isTokenHash := itk, numberParser := np,
    aliases := [], hashToText := [], hashToFrequency := [], postings := [] }

/-- The body of addItem's `for (const [index, hash] of
alias.hashes.entries())` loop (tokenizer.ts lines 106-132), at the
indexed fingerprint `ih = (index, hash)` with the assigned alias id. -/
def addItemStep (al : TokenizerAlias) (id : ℕ) (t : TokenizerState) (ih : ℕ × ℤ) :
    TokenizerState :=
  { t with
    hashToText := addText t.hashToText ih.2 (al.stemmed.getD ih.1 ""),
    hashToFrequency := bumpFrequency t.hashToFrequency ih.2,
    postings := addPosting t.postings ih.2 id }

/-- Tokenizer.addItem (tokenizer.ts lines 98-133): assign the next dense
id, push the alias, and for each fingerprint occurrence record stem text
on first sight, bump the frequency and append the id to the postings
list. -/
def addItem (s : TokenizerState) (al : TokenizerAlias) : TokenizerState :=
  let id := s.aliases.length
  let s1 := { s with aliases := s.aliases ++ [al] }
  al.hashes.enum.foldl (addItemStep al id) s1

/-! ## Lattice construction -/

/-- A placeholder alias: JavaScript array access `this.aliases[item]`
is modelled as `getD` with this default (postings ids always index into
`aliases` in the source). -/
def defaultAlias : TokenizerAlias :=
  { token := 0, text := "", terms := [], stemmed := [], hashes := [],
    matcher := fun _ _ _ _ =>
      { match_ := [], cost := 0, leftmostA := 0, rightmostA := -1,
        alignments := 0, commonTerms := ∅ },
    isDownstreamTerm := fun _ => false }

/-- Tokenizer.isNeverDownstreamTerm (tokenizer.ts lines 60-62). -/
def isNeverDownstreamTerm : ℤ → Bool := fun _ => false

/-- Tokenizer.matchAndScore (tokenizer.ts lines 143-148): run the alias's
matcher on the query tail and score the result. -/
def matchAndScore (s : TokenizerState) (query : List ℤ) (al : TokenizerAlias) : ℚ × ℤ :=
  score query al.hashes al.isDownstreamTerm
    (al.matcher query al.hashes al.isDownstreamTerm s.isTokenHash)

/-- The number-edge construction of Tokenizer.generateGraph (tokenizer.ts
lines 278-292): build a synthetic DiffResults for the matched window
`hashed.slice(index, index + value.length)` (cost 0, bounds
0..length-1, alignments = length, commonTerms = set of those hashes),
score it with the never-downstream predicate, and form the edge. -/
def numberEdge (hashed : List ℤ) (index : ℕ) (value : NumberMatch) : Edge :=
  let match_ := (hashed.drop index).take value.length
  let commonTerms : Finset ℤ := match_.toFinset
  let diff : DiffResults :=
    { match_ := match_, cost := 0, leftmostA := 0,
      rightmostA := (value.length : ℤ) - 1,
      alignments := value.length, commonTerms := commonTerms }
  let r := score hashed match_ isNeverDownstreamTerm diff
  { score := r.1, length := r.2, label := value.value, isNumber := true }

/-- The unsorted edge list generateGraph builds at one query position
(tokenizer.ts lines 251-295): alias edges from the postings candidates of
`hashed[index]` followed by number edges from the number parser run on
the tail. -/
def positionEdges (s : TokenizerState) (hashed : List ℤ) (index : ℕ) : List Edge :=
  let tail := hashed.drop index
  let aliasEdges : List Edge :=
    match alookup s.postings (hashed.getD index 0) with
    | some items =>
      items.map (fun item =>
        let r := matchAndScore s tail (s.aliases.getD item defaultAlias)
        { score := r.1, length := r.2, label := (item : ℤ), isNumber := false })
    | none => []
  let numEdges : List Edge :=
    (s.numberParser tail).map (fun v => numberEdge hashed index v)
  aliasEdges ++ numEdges

/-- Stable insertion into a list of key-payload pairs sorted by
descending key: the new pair goes before the first strictly smaller key,
after equal keys. -/
def insertDesc {α : Type} (x : ℚ × α) : List (ℚ × α) → List (ℚ × α)
  | [] => [x]
  | y :: ys => if y.1 < x.1 then x :: y :: ys else y :: insertDesc x ys

/-- Stable sort of key-payload pairs by descending key. -/
def sortPairsDesc {α : Type} (l : List (ℚ × α)) : List (ℚ × α) :=
  l.foldr insertDesc []

/-- `edges.sort((a, b) => b.score - a.score)` (tokenizer.ts line 303):
sort edges by descending score, stable on insertion order. -/
def sortEdgesDesc (edges : List Edge) : List Edge :=
  (sortPairsDesc (edges.map (fun e => (e.score, e)))).map (fun p => p.2)

/-- A lattice produced for a query: entry `i` is the edge list starting
at query position `i` (Graph in src/graph.ts, declaration only). -/
structure Graph where
  edgeLists : List (List Edge)

/-- The unknown edge `{score = 0, length = 1, label = -1}`. -/
def unknownEdge : Edge :=
  { score := 0, length := 1, label := -1, isNumber := false }

/-- Modelled from the spec: the DynamicGraph constructor (src/graph.ts is
absent from the sources).  Per the spec's lattice-construction step 4, a
position at which no edge resulted receives a single unknown edge
`{score = 0, length = 1, label = -1}` so the walker can always traverse
the full query. -/
def dynamicGraph (edgeLists : List (List Edge)) : Graph :=
  { edgeLists := edgeLists.map (fun edges => if edges.isEmpty then [unknownEdge] else edges) }

/-- Tokenizer.generateGraph (tokenizer.ts lines 245-309): for each query
position build and sort the edge list, then construct the graph.  The
`stemmed` argument is used by the source only for debug logging.  The
tokenizer state is threaded and returned to express that the call leaves
it unchanged. -/
def generateGraph (s : TokenizerState) (hashed : List ℤ) (stemmed : List String) :
    TokenizerState × Graph :=
  let edgeLists :=
    (List.range hashed.length).map (fun index => sortEdgesDesc (positionEdges s hashed index))
  (s, dynamicGraph edgeLists)

/-! ## The lexicon (src/tokenizer/lexicon.ts) -/

/-- JavaScript `text.split(/\s+/)` (lexicon.ts line 66): split on maximal
whitespace runs.  An empty piece is produced when the string starts or
ends with whitespace, and `""` (no separator match) yields `[""]`. -/
def splitWsGo : List Char → Bool → List Char → List String → List String
  | [], _, acc, out => out ++ [String.mk acc.reverse]
  | c :: cs, lastWs, acc, out =>
    if c.isWhitespace then
      if lastWs then splitWsGo cs true acc out
      else splitWsGo cs true [] (out ++ [String.mk acc.reverse])
    else splitWsGo cs false (c :: acc) out

/-- `text.split(/\s+/)`. -/
def jsSplitWs (s : String) : List String :=
  splitWsGo s.toList false [] []

/-- The term model interface (src/tokenizer/term-model.ts is absent; the
fields are the operations the lexicon and tokenizer call on it, as listed
in the spec).  All four operations are abstract here. -/
structure TermModel where
  stem : String → String
  hashTerm : String → ℤ
  isTokenHash : ℤ → Bool
  isNumberHash : ℤ → Bool

/-- An alias as consumed by the lexicon (interface Alias, lexicon.ts):
`{token, text, matcher}`. -/
structure Alias where
  token : ℤ
  text : String
  matcher : Matcher

/-- The per-alias registration work of the Domain constructor (lexicon.ts
lines 65-76): split on whitespace, stem each term, hash each stem, and
attach the arrays.  In the source `isDownstreamTerm` is a closure over
the mutable domain; here registration stores a placeholder predicate and
`domainIngest` substitutes the domain's final predicate, which is what
the late-bound closure evaluates to at every use after ingestion. -/
def mkTokenizerAlias (tm : TermModel) (a : Alias) : TokenizerAlias :=
  let terms := jsSplitWs a.text
  let stemmed := terms.map tm.stem
  let hashes := stemmed.map tm.hashTerm
  { token := a.token, text := a.text, terms := terms, stemmed := stemmed,
    hashes := hashes, matcher := a.matcher, isDownstreamTerm := fun _ => false }

/-- A domain (class Domain, lexicon.ts): its registered aliases, its own
fingerprint set, its downstream fingerprint set (empty until
`addDownstreamTerms`), and the ingestion flag. -/
structure LexDomain where
  tokenizerAliases : List TokenizerAlias
  ownTerms : Finset ℤ
  downstreamTerms : Finset ℤ
  forIngestion : Bool

/-- The Domain constructor (lexicon.ts lines 53-82): register every
alias (no validation is performed) and collect the union of their hashes
as the domain's own terms. -/
def mkDomain (aliases : List Alias) (tm : TermModel) (forIngestion : Bool) : LexDomain :=
  let tas := aliases.map (mkTokenizerAlias tm)
  { tokenizerAliases := tas,
    ownTerms := (tas.flatMap (fun ta => ta.hashes)).toFinset,
    downstreamTerms := ∅,
    forIngestion := forIngestion }

/-- The union of the own-term sets of all domains other than the one at
position `i`, scanning the domain list with running index `j` (the
`domain !== this` loop of Domain.addDownstreamTerms, lexicon.ts lines
87-93; domains are distinct objects, so reference inequality is position
inequality). -/
def unionOthersAux : List LexDomain → ℕ → ℕ → Finset ℤ
  | [], _, _ => ∅
  | d :: ds, j, i =>
    (if j = i then ∅ else d.ownTerms) ∪ unionOthersAux ds (j + 1) i

/-- Domain.isDownstreamTerm (lexicon.ts lines 105-112): a token hash, a
number hash, or a member of the domain's downstream set. -/
def domainIsDownstreamTerm (tm : TermModel) (d : LexDomain) (h : ℤ) : Bool :=
  tm.isTokenHash h || tm.isNumberHash h || decide (h ∈ d.downstreamTerms)

/-- Domain.addDownstreamTerms (lexicon.ts lines 84-95) for the domain at
position `i` of `all`: when it is an ingestion domain, its downstream set
becomes the number-parser terms united with every other domain's own
terms; otherwise it is left untouched. -/
def addDownstreamTerms (numberTerms : Finset ℤ) (all : List LexDomain) (i : ℕ)
    (d : LexDomain) : LexDomain :=
  if d.forIngestion then
    { d with downstreamTerms := numberTerms ∪ unionOthersAux all 0 i }
  else d

/-- Domain.ingest (lexicon.ts lines 97-103): hand every alias of an
ingestion domain to the tokenizer, with the late-bound
`isDownstreamTerm` closure resolved to the domain's predicate. -/
def domainIngest (tm : TermModel) (d : LexDomain) (t : TokenizerState) : TokenizerState :=
  if d.forIngestion then
    d.tokenizerAliases.foldl
      (fun t' a => addItem t' { a with isDownstreamTerm := domainIsDownstreamTerm tm d }) t
  else t

/-- The loop body of Lexicon.ingest (lexicon.ts lines 28-33) over the
indexed domain list: each domain in order receives its downstream terms
and is then ingested.  `all` is the original domain list: the loop reads
only `ownTerms` of the other domains, a field no iteration writes. -/
def lexIngestAux (tm : TermModel) (numberTerms : Finset ℤ) (all : List LexDomain) :
    List (ℕ × LexDomain) → TokenizerState → List LexDomain × TokenizerState
  | [], t => ([], t)
  | (i, d) :: rest, t =>
    let d' := addDownstreamTerms numberTerms all i d
    let t' := domainIngest tm d' t
    let r := lexIngestAux tm numberTerms all rest t'
    (d' :: r.1, r.2)

/-- The lexicon (class Lexicon, lexicon.ts): the term model, the number
parser — represented by its parse function and, per the spec, by
`numberTerms`, the set its `ownHashedTerms()` returns — and the ordered
domain list. -/
structure Lexicon where
  termModel : TermModel
  numberParser : List ℤ → List NumberMatch
  numberTerms : Finset ℤ
  domains : List LexDomain

/-- Lexicon.addDomain (lexicon.ts lines 24-26). -/
def lexiconAddDomain (lx : Lexicon) (aliases : List Alias) (forIngestion : Bool) : Lexicon :=
  { lx with domains := lx.domains ++ [mkDomain aliases lx.termModel forIngestion] }

/-- Lexicon.ingest (lexicon.ts lines 28-33): for each domain in order,
compute its downstream terms from the number parser's own hashed terms
and the other domains, then ingest it into the tokenizer. -/
def lexiconIngest (lx : Lexicon) (t : TokenizerState) : Lexicon × TokenizerState :=
  let r := lexIngestAux lx.termModel lx.numberTerms lx.domains lx.domains.enum t
  ({ lx with domains := r.1 }, r.2)

/-! ## Path enumeration over a lattice

Modelled from the spec: src/graph.ts (GraphWalker, DynamicGraph) and the
test helper static_graph.ts are absent from the sources.  The spec
requires that a dynamic enumerator computing completions on demand and a
static enumerator working from precomputed data list the same complete
paths in the same order: best-first on the total score of the best
completion through each edge, ties broken by edge insertion order at
each position.  A lattice is represented by its remaining suffix of
per-position edge lists; an edge is usable at a suffix when its length
is at least 1 and does not overshoot the last position. -/

/-- The total score of a path: the sum of its edges' scores. -/
def pathScore (p : List Edge) : ℚ :=
  (p.map Edge.score).sum

/-- The greatest element of a list of scores, `none` for the empty list. -/
def maxQ : List ℚ → Option ℚ
  | [] => none
  | x :: xs =>
    match maxQ xs with
    | none => some x
    | some m => some (max x m)

/-- An edge usable at a lattice suffix of `n` positions: positive length,
landing at or before the last position. -/
def edgeOK (e : Edge) (n : ℕ) : Bool :=
  decide (1 ≤ e.length) && decide (e.length ≤ (n : ℤ))

/-- The best completion score from a lattice suffix, computed on demand:
`some 0` past the last position, otherwise the maximum over usable edges
of edge score plus best completion score of the edge's target, `none`
when no completion exists.  The fuel argument bounds the recursion depth
and is irrelevant once it reaches the suffix length. -/
def bestScoreF : ℕ → List (List Edge) → Option ℚ
  | _, [] => some 0
  | 0, _ :: _ => none
  | fuel + 1, edges :: rest =>
    maxQ ((edges.filter (fun e => edgeOK e (rest.length + 1))).filterMap
      (fun e => (bestScoreF fuel ((edges :: rest).drop e.length.toNat)).map
        (fun b => e.score + b)))

/-- The best completion score from a lattice suffix. -/
def bestScore (lat : List (List Edge)) : Option ℚ :=
  bestScoreF lat.length lat

/-- The dynamic enumerator: at each position, keep the usable edges that
admit a completion, order them by edge score plus best completion score
of their target — both computed on demand — stable on insertion order,
and under each edge in turn list the completions of its target. -/
def dynPathsF : ℕ → List (List Edge) → List (List Edge)
  | _, [] => [[]]
  | 0, _ :: _ => []
  | fuel + 1, edges :: rest =>
    let ok := edges.filter
      (fun e => edgeOK e (rest.length + 1) &&
        (bestScore ((edges :: rest).drop e.length.toNat)).isSome)
    let keyed := ok.map
      (fun e => (e.score + (bestScore ((edges :: rest).drop e.length.toNat)).getD 0, e))
    (sortPairsDesc keyed).flatMap
      (fun p => (dynPathsF fuel ((edges :: rest).drop p.2.length.toNat)).map
        (fun q => p.2 :: q))

/-- The dynamic enumerator over a whole lattice suffix. -/
def dynPaths (lat : List (List Edge)) : List (List Edge) :=
  dynPathsF lat.length lat

/-- The static enumerator's precomputed table, built bottom-up from the
last position: entry `j` is the ordered list of complete paths of the
suffix dropping `j` positions.  A new entry keeps the usable edges whose
target entry is non-empty, orders them by the total score of the best
stored path through them — read off the table, not recomputed — stable
on insertion order, and concatenates the stored target paths under each
edge. -/
def staticTable : List (List Edge) → List (List (List Edge))
  | [] => [[[]]]
  | edges :: rest =>
    let prev := staticTable rest
    let ok := edges.filter
      (fun e => edgeOK e (rest.length + 1) &&
        !(prev.getD (e.length.toNat - 1) []).isEmpty)
    let keyed := ok.map
      (fun e => (e.score + pathScore ((prev.getD (e.length.toNat - 1) []).headD []), e))
    let entry := (sortPairsDesc keyed).flatMap
      (fun p => (prev.getD (p.2.length.toNat - 1) []).map (fun q => p.2 :: q))
    entry :: prev

/-- The static enumerator: the first entry of the precomputed table. -/
def staticPaths (lat : List (List Edge)) : List (List Edge) :=
  (staticTable lat).headD []

/-- All suffixes of a list, longest first, ending with `[]`. -/
def allSuffixes {α : Type} : List α → List (List α)
  | [] => [[]]
  | x :: xs => (x :: xs) :: allSuffixes xs

/-- Tokenizer.score with the (unused) `downstreamWordFactor` computation
removed; used to state that the factor never reaches the returned
value. -/
def scoreWithoutDownstreamWordFactor (query pfx : List ℤ) (isDownstreamTerm : ℤ → Bool)
    (diff : DiffResults) : ℚ × ℤ :=
  let s0 : ℚ := baseScore diff
  let s1 : ℚ :=
    if 0 < diff.commonTerms.card ∧
        diff.commonTerms.card = (commonDownstreamWords isDownstreamTerm diff).card ∧
        diff.commonTerms.card ≠ pfx.length then -1 else s0
  let s2 : ℚ := if s1 ≤ (1 / 100 : ℚ) then -1 else s1
  (s2, diff.rightmostA + 1)

/-- A concrete DiffResults record: a one-term match at query position 0
with no common terms. -/
def diffW : DiffResults :=
  { match_ := [3], cost := 0, leftmostA := 0, rightmostA := 0,
    alignments := 0, commonTerms := ∅ }

/-- A tokenizer whose number parser recognizes exactly the tail `[4]` as
the number four. -/
def sW : TokenizerState :=
  { isTokenHash := fun _ => false,
    numberParser := fun t => if t = [4] then [{ value := 4, length := 1 }] else [],
    aliases := [], hashToText := [], hashToFrequency := [], postings := [] }

/-- An empty tokenizer: nothing indexed, number parser matching
nothing. -/
def s0W : TokenizerState :=
  { isTokenHash := fun _ => false, numberParser := fun _ => [],
    aliases := [], hashToText := [], hashToFrequency := [], postings := [] }

/-- A term model whose operations are trivial; stands in for the absent
src/tokenizer/term-model.ts in concrete instances. -/
def tmW : TermModel :=
  { stem := fun s => s, hashTerm := fun _ => 0,
    isTokenHash := fun _ => false, isNumberHash := fun _ => false }

/-- A matcher returning an empty alignment; used in concrete instances. -/
def matcherW : Matcher := fun _ _ _ _ =>
  { match_ := [], cost := 0, leftmostA := 0, rightmostA := -1,
    alignments := 0, commonTerms := ∅ }

/-- A default alias record for out-of-bounds `getD`. -/
def defaultLexAlias : Alias := { token := 0, text := "", matcher := matcherW }

/-- A domain with no aliases; default for out-of-bounds `getD`. -/
def emptyDomain : LexDomain :=
  { tokenizerAliases := [], ownTerms := ∅, downstreamTerms := ∅, forIngestion := false }

/-- A two-domain lexicon: the first domain owns fingerprint 1, the
second owns fingerprint 2, and the number parser owns 9. -/
def lxW : Lexicon :=
  { termModel := tmW, numberParser := fun _ => [], numberTerms := {9},
    domains :=
      [{ tokenizerAliases := [], ownTerms := {1}, downstreamTerms := ∅, forIngestion := true },
       { tokenizerAliases := [], ownTerms := {2}, downstreamTerms := ∅, forIngestion := true }] }

/-- The postings list of a fingerprint, empty when the fingerprint was
never indexed. -/
def postingsAt (P : List (ℤ × List ℕ)) (x : ℤ) : List ℕ :=
  (alookup P x).getD []

/-- The total number of postings entries over all fingerprints. -/
def totalPostings (P : List (ℤ × List ℕ)) : ℕ :=
  (P.map (fun p => p.2.length)).sum

/-- Every alias id stored in the postings lists is below `n`. -/
def FreshIds (P : List (ℤ × List ℕ)) (n : ℕ) : Prop :=
  ∀ p ∈ P, ∀ j ∈ p.2, j < n

/-- The combined postings invariant carried through the induction. -/
def PostingsInv (s : TokenizerState) (als : List TokenizerAlias) : Prop :=
  s.aliases = als
  ∧ FreshIds s.postings als.length
  ∧ totalPostings s.postings = (als.map (fun a => a.hashes.length)).sum
  ∧ ∀ i, i < als.length → ∀ x : ℤ,
      (postingsAt s.postings x).count i = (als.getD i defaultAlias).hashes.count x

/-- A two-term alias whose stemmed terms collide on fingerprint 7. -/
def alW1 : TokenizerAlias :=
  { token := 0, text := "a a", terms := ["a", "a"], stemmed := ["a", "a"],
    hashes := [7, 7], matcher := matcherW, isDownstreamTerm := fun _ => false }

/-- A one-term alias on fingerprint 7. -/
def alW2 : TokenizerAlias :=
  { token := 1, text := "a", terms := ["a"], stemmed := ["a"],
    hashes := [7], matcher := matcherW, isDownstreamTerm := fun _ => false }

/-!
# Theorems
-/

example : (score [] [] (fun _ => false)
    { match_ := [1, 2], cost := 0, leftmostA := 0, rightmostA := 1,
      alignments := 2, commonTerms := {1, 2} }).1 = 2 := by
  norm_num [score, baseScore, matchFactor, commonFactor, positionFactor,
    lengthFactor, commonDownstreamWords]

example : (score [] [7] (fun _ => true)
    { match_ := [7], cost := 0, leftmostA := 0, rightmostA := 0,
      alignments := 1, commonTerms := {7} }).1 = 1 := by
  norm_num [score, baseScore, matchFactor, commonFactor, positionFactor,
    lengthFactor, commonDownstreamWords]

example : jsSplitWs "" = [""] := by decide
example : jsSplitWs "a b" = ["a", "b"] := by decide
example : jsSplitWs " a" = ["", "a"] := by decide


/-- The common-terms count equals the count of common downstream words
exactly when every common term is downstream. -/
theorem commonTerms_card_eq_filter_iff (isDT : ℤ → Bool) (diff : DiffResults) :
    diff.commonTerms.card = (commonDownstreamWords isDT diff).card ↔
      ∀ h ∈ diff.commonTerms, isDT h = true := by
  unfold commonDownstreamWords
  constructor
  · intro hcard h hh
    have hsub : diff.commonTerms.filter (fun x => isDT x = true) ⊆ diff.commonTerms :=
      Finset.filter_subset _ _
    have heq : diff.commonTerms.filter (fun x => isDT x = true) = diff.commonTerms :=
      Finset.eq_of_subset_of_card_le hsub (le_of_eq hcard)
    have := (Finset.filter_eq_self.mp heq) h hh
    exact this
  · intro hall
    rw [Finset.filter_eq_self.mpr hall]

/-- C1: for every call to Tokenizer.score, the computed pre-rejection
score equals matchFactor × commonFactor × positionFactor × lengthFactor
with, writing L = rightmostA + 1, matchFactor = (L − cost)/L when
L > cost and 1/(L + cost) otherwise, commonFactor = |commonTerms| /
|match|, positionFactor = max(|match| − leftmostA, 0) / |match| and
lengthFactor = |match|; and the returned length is rightmostA + 1. -/
theorem score_base_formula (query pfx : List ℤ) (isDT : ℤ → Bool) (diff : DiffResults) :
    baseScore diff =
      (if (diff.rightmostA + 1 : ℤ) > (diff.cost : ℤ)
        then (((diff.rightmostA : ℚ) + 1) - (diff.cost : ℚ)) / ((diff.rightmostA : ℚ) + 1)
        else 1 / (((diff.rightmostA : ℚ) + 1) + (diff.cost : ℚ)))
      * ((diff.commonTerms.card : ℚ) / (diff.match_.length : ℚ))
      * (max ((diff.match_.length : ℚ) - (diff.leftmostA : ℚ)) 0 / (diff.match_.length : ℚ))
      * (diff.match_.length : ℚ)
    ∧ (score query pfx isDT diff).2 = diff.rightmostA + 1 := by
  constructor
  · unfold baseScore matchFactor commonFactor positionFactor lengthFactor
    push_cast
    rfl
  · rfl

/-- C2: Tokenizer.score returns −1 exactly when all common terms are
downstream without the match covering the whole prefix, or the base
score is at most 0.01; otherwise it returns the base score unchanged. -/
theorem score_rejection_rule (query pfx : List ℤ) (isDT : ℤ → Bool) (diff : DiffResults) :
    ((score query pfx isDT diff).1 =
      if (0 < diff.commonTerms.card ∧ (∀ h ∈ diff.commonTerms, isDT h = true) ∧
            diff.commonTerms.card ≠ pfx.length) ∨ baseScore diff ≤ 1 / 100
        then -1 else baseScore diff)
    ∧ ((score query pfx isDT diff).1 = -1 ↔
        (0 < diff.commonTerms.card ∧ (∀ h ∈ diff.commonTerms, isDT h = true) ∧
            diff.commonTerms.card ≠ pfx.length) ∨ baseScore diff ≤ 1 / 100) := by
  have hiff := commonTerms_card_eq_filter_iff isDT diff
  by_cases hA : 0 < diff.commonTerms.card ∧
      diff.commonTerms.card = (commonDownstreamWords isDT diff).card ∧
      diff.commonTerms.card ≠ pfx.length
  · have hA' : 0 < diff.commonTerms.card ∧ (∀ h ∈ diff.commonTerms, isDT h = true) ∧
        diff.commonTerms.card ≠ pfx.length := ⟨hA.1, hiff.mp hA.2.1, hA.2.2⟩
    have h1 : (score query pfx isDT diff).1 = -1 := by
      simp only [score, if_pos hA]
      norm_num
    constructor
    · rw [h1, if_pos (Or.inl hA')]
    · exact ⟨fun _ => Or.inl hA', fun _ => h1⟩
  · have hA' : ¬(0 < diff.commonTerms.card ∧ (∀ h ∈ diff.commonTerms, isDT h = true) ∧
        diff.commonTerms.card ≠ pfx.length) := by
      intro hc
      exact hA ⟨hc.1, hiff.mpr hc.2.1, hc.2.2⟩
    by_cases hB : baseScore diff ≤ 1 / 100
    · have h1 : (score query pfx isDT diff).1 = -1 := by
        simp only [score, if_neg hA, if_pos hB]
      constructor
      · rw [h1, if_pos (Or.inr hB)]
      · exact ⟨fun _ => Or.inr hB, fun _ => h1⟩
    · have hnot : ¬((0 < diff.commonTerms.card ∧ (∀ h ∈ diff.commonTerms, isDT h = true) ∧
          diff.commonTerms.card ≠ pfx.length) ∨ baseScore diff ≤ 1 / 100) :=
        fun hor => hor.elim hA' hB
      have h1 : (score query pfx isDT diff).1 = baseScore diff := by
        simp only [score, if_neg hA, if_neg hB]
      constructor
      · rw [h1, if_neg hnot]
      · rw [h1]
        constructor
        · intro hm
          exact absurd (by rw [hm]; norm_num) hB
        · intro hor
          exact (hnot hor).elim


/-- C9: Tokenizer.generateGraph leaves the tokenizer state unchanged:
the alias array, the postings lists, the frequency map and the
hash-to-text map after the call are those before it. -/
theorem generateGraph_preserves_state (s : TokenizerState) (hashed : List ℤ)
    (stemmed : List String) :
    (generateGraph s hashed stemmed).1.aliases = s.aliases
    ∧ (generateGraph s hashed stemmed).1.postings = s.postings
    ∧ (generateGraph s hashed stemmed).1.hashToFrequency = s.hashToFrequency
    ∧ (generateGraph s hashed stemmed).1.hashToText = s.hashToText :=
  ⟨rfl, rfl, rfl, rfl⟩

/-- C10: under a non-empty match with rightmostA ≥ 0, every divisor the
returned score depends on is non-zero, the downstream-word ratio never
reaches the returned value, and with no common terms the base score is 0
and is clamped to −1. -/
theorem score_division_safety (query pfx : List ℤ) (isDT : ℤ → Bool) (diff : DiffResults)
    (h1 : diff.match_ ≠ []) (h2 : 0 ≤ diff.rightmostA) :
    ((diff.match_.length : ℚ) ≠ 0)
    ∧ (((diff.rightmostA : ℚ) + 1) ≠ 0)
    ∧ (((diff.rightmostA : ℚ) + 1 + (diff.cost : ℚ)) ≠ 0)
    ∧ score query pfx isDT diff = scoreWithoutDownstreamWordFactor query pfx isDT diff
    ∧ (diff.commonTerms.card = 0 → (score query pfx isDT diff).1 = -1) := by
  have hlen : diff.match_.length ≠ 0 := by
    intro h
    exact h1 (List.length_eq_zero.mp h)
  have hq : (0 : ℚ) ≤ (diff.rightmostA : ℚ) := by exact_mod_cast h2
  have hc : (0 : ℚ) ≤ (diff.cost : ℚ) := by positivity
  refine ⟨by exact_mod_cast hlen, by linarith, by linarith, rfl, ?_⟩
  intro hcard
  have hbase : baseScore diff = 0 := by
    unfold baseScore commonFactor
    rw [hcard]
    norm_num
  simp only [score, hcard]
  norm_num [hbase]

/-- Witness for C10 at a concrete one-term match. -/
theorem score_division_safety_witness :
    ((diffW.match_.length : ℚ) ≠ 0)
    ∧ (((diffW.rightmostA : ℚ) + 1) ≠ 0)
    ∧ (((diffW.rightmostA : ℚ) + 1 + (diffW.cost : ℚ)) ≠ 0)
    ∧ score [] [] (fun _ => false) diffW =
        scoreWithoutDownstreamWordFactor [] [] (fun _ => false) diffW
    ∧ (diffW.commonTerms.card = 0 → (score [] [] (fun _ => false) diffW).1 = -1) :=
  score_division_safety [] [] (fun _ => false) diffW (by decide) (by decide)

/-- C4 counterexample: on the query `[5, 5]` a number match of length 2
covers the window `[5, 5]`, whose de-duplicated common-term set is `{5}`,
so the edge score is 1 — not `|match| = 2` as the claim states. -/
theorem numberEdge_score_counterexample :
    (numberEdge [5, 5] 0 { value := 22, length := 2 }).score = 1
    ∧ ((([5, 5] : List ℤ).drop 0).take 2).length = 2
    ∧ (1 : ℚ) ≠ 2 := by
  have hset : (([5, 5] : List ℤ).toFinset) = {5} := by decide
  refine ⟨?_, by decide, by norm_num⟩
  show (score [5, 5] [5, 5] isNeverDownstreamTerm
    { match_ := [5, 5], cost := 0, leftmostA := 0, rightmostA := (2 : ℤ) - 1,
      alignments := 2, commonTerms := ([5, 5] : List ℤ).toFinset }).1 = 1
  rw [hset]
  norm_num [score, baseScore, matchFactor, commonFactor, positionFactor,
    lengthFactor, commonDownstreamWords, isNeverDownstreamTerm]

/-- C4 amended: for every number-parser match `{value, length}` on the
query tail, generateGraph emits a number edge with label `value` and the
given length, scored from the synthetic exact-match DiffResults under
the never-downstream predicate; the resulting edge score equals the
number of distinct fingerprints of the matched window — which is
`|match|` exactly when the window's fingerprints are pairwise
distinct. -/
theorem numberEdge_emitted (s : TokenizerState) (hashed : List ℤ) (index : ℕ)
    (v : NumberMatch) (h1 : 1 ≤ v.length) (h2 : index + v.length ≤ hashed.length) :
    (numberEdge hashed index v).score =
      ((((hashed.drop index).take v.length).toFinset.card : ℚ))
    ∧ (numberEdge hashed index v).length = (v.length : ℤ)
    ∧ (numberEdge hashed index v).label = v.value
    ∧ (numberEdge hashed index v).isNumber = true
    ∧ (v ∈ s.numberParser (hashed.drop index) →
        numberEdge hashed index v ∈ positionEdges s hashed index) := by
  set m : List ℤ := (hashed.drop index).take v.length with hm
  have hmlen : m.length = v.length := by
    rw [hm, List.length_take, List.length_drop]
    omega
  have hmne : m ≠ [] := by
    intro h
    rw [h] at hmlen
    simp at hmlen
    omega
  have hcardpos : 0 < m.toFinset.card := by
    rcases List.exists_mem_of_ne_nil m hmne with ⟨x, hx⟩
    exact Finset.card_pos.mpr ⟨x, List.mem_toFinset.mpr hx⟩
  have hlq : ((v.length : ℚ)) ≠ 0 := by
    have : (0 : ℕ) < v.length := h1
    exact_mod_cast Nat.pos_iff_ne_zero.mp this
  have hfilter :
      commonDownstreamWords isNeverDownstreamTerm
        { match_ := m, cost := 0, leftmostA := 0, rightmostA := (v.length : ℤ) - 1,
          alignments := v.length, commonTerms := m.toFinset } = ∅ := by
    unfold commonDownstreamWords isNeverDownstreamTerm
    simp
  have hscore : (numberEdge hashed index v).score = ((m.toFinset.card : ℚ)) := by
    show (score hashed m isNeverDownstreamTerm
      { match_ := m, cost := 0, leftmostA := 0, rightmostA := (v.length : ℤ) - 1,
        alignments := v.length, commonTerms := m.toFinset }).1 = ((m.toFinset.card : ℚ))
    have hbase : baseScore
        { match_ := m, cost := 0, leftmostA := 0, rightmostA := (v.length : ℤ) - 1,
          alignments := v.length, commonTerms := m.toFinset } = ((m.toFinset.card : ℚ)) := by
      unfold baseScore matchFactor commonFactor positionFactor lengthFactor
      simp only [hmlen]
      rw [if_pos (by push_cast; omega)]
      push_cast
      have hmax : max ((v.length : ℚ) - 0) 0 = ((v.length : ℚ)) := by
        rw [sub_zero, max_eq_left (by positivity)]
      rw [hmax]
      field_simp
    have hne : m.toFinset.card ≠ (∅ : Finset ℤ).card := by
      rw [Finset.card_empty]
      omega
    have h1q : (1 : ℚ) ≤ ((m.toFinset.card : ℚ)) := by exact_mod_cast hcardpos
    have hnotle : ¬(((m.toFinset.card : ℚ)) ≤ 1 / 100) := by
      intro hc
      linarith
    have hcond1 : ¬(0 < m.toFinset.card ∧ m.toFinset.card = (∅ : Finset ℤ).card ∧
        m.toFinset.card ≠ m.length) := fun hc => hne hc.2.1
    simp only [score, hbase, hfilter]
    rw [if_neg hcond1, if_neg hnotle]
  refine ⟨hscore, ?_, rfl, rfl, ?_⟩
  · show ((v.length : ℤ) - 1) + 1 = (v.length : ℤ)
    ring
  · intro hv
    unfold positionEdges
    refine List.mem_append_right _ ?_
    exact List.mem_map.mpr ⟨v, hv, rfl⟩

/-- Witness for the amended C4 at the query `[4]`. -/
theorem numberEdge_emitted_witness :
    (numberEdge [4] 0 { value := 4, length := 1 }).score =
      (((([4] : List ℤ).drop 0).take 1).toFinset.card : ℚ)
    ∧ (numberEdge [4] 0 { value := 4, length := 1 }).length = ((1 : ℕ) : ℤ)
    ∧ (numberEdge [4] 0 { value := 4, length := 1 }).label = 4
    ∧ (numberEdge [4] 0 { value := 4, length := 1 }).isNumber = true
    ∧ ({ value := 4, length := 1 } ∈ sW.numberParser (([4] : List ℤ).drop 0) →
        numberEdge [4] 0 { value := 4, length := 1 } ∈ positionEdges sW [4] 0) :=
  numberEdge_emitted sW [4] 0 { value := 4, length := 1 } (by decide) (by decide)

/-- C3: a query position at which lattice construction produced no alias
edge and no number edge receives a single unknown edge
`{score = 0, length = 1, label = -1}`, and every position of the lattice
offers at least one edge. -/
theorem generateGraph_unknown_edge (s : TokenizerState) (hashed : List ℤ)
    (stemmed : List String) (i : ℕ) (hi : i < hashed.length) :
    (positionEdges s hashed i = [] →
      (generateGraph s hashed stemmed).2.edgeLists.getD i [] = [unknownEdge])
    ∧ (generateGraph s hashed stemmed).2.edgeLists.getD i [] ≠ [] := by
  have hget : (generateGraph s hashed stemmed).2.edgeLists.getD i [] =
      (if (sortEdgesDesc (positionEdges s hashed i)).isEmpty then [unknownEdge]
        else sortEdgesDesc (positionEdges s hashed i)) := by
    show ((((List.range hashed.length).map
        (fun index => sortEdgesDesc (positionEdges s hashed index))).map
        (fun edges => if edges.isEmpty then [unknownEdge] else edges)).getD i []) = _
    rw [List.map_map, List.getD_eq_getElem?_getD, List.getElem?_map,
      List.getElem?_range hi]
    rfl
  constructor
  · intro hempty
    rw [hget, hempty]
    rfl
  · rw [hget]
    by_cases hcase : (sortEdgesDesc (positionEdges s hashed i)).isEmpty
    · rw [if_pos hcase]
      intro h
      exact List.cons_ne_nil _ _ h
    · rw [if_neg hcase]
      intro h
      rw [h] at hcase
      exact hcase rfl

/-- Witness for C3 at the one-term query `[42]` over an empty
tokenizer: no edges are produced and the fallback fires. -/
theorem generateGraph_unknown_edge_witness :
    positionEdges s0W [42] 0 = []
    ∧ ((positionEdges s0W [42] 0 = [] →
          (generateGraph s0W [42] []).2.edgeLists.getD 0 [] = [unknownEdge])
        ∧ (generateGraph s0W [42] []).2.edgeLists.getD 0 [] ≠ []) :=
  ⟨by decide, generateGraph_unknown_edge s0W [42] [] 0 (by decide)⟩

/-- `getD` through `map` at an in-bounds index. -/
theorem getD_map_of_lt {α β : Type} (f : α → β) (l : List α) (i : ℕ) (hi : i < l.length)
    (d : α) (d' : β) : (l.map f).getD i d' = f (l.getD i d) := by
  rw [List.getD_eq_getElem?_getD, List.getElem?_map, List.getElem?_eq_getElem hi,
    List.getD_eq_getElem?_getD, List.getElem?_eq_getElem hi]
  rfl

/-- C8 counterexample: an alias whose text is the empty string is NOT
rejected by the Domain constructor — it is registered, as the single
"term" produced by splitting the empty string. -/
theorem empty_alias_registered :
    (mkDomain [{ token := 0, text := "", matcher := matcherW }] tmW true).tokenizerAliases.length
      = 1
    ∧ ((mkDomain [{ token := 0, text := "", matcher := matcherW }] tmW
        true).tokenizerAliases.map (fun ta => ta.text)) = [""]
    ∧ ((mkDomain [{ token := 0, text := "", matcher := matcherW }] tmW
        true).tokenizerAliases.map (fun ta => ta.terms)) = [[""]] :=
  ⟨by decide, by decide, by decide⟩

/-- C8 amended: Domain registration performs no validation.  Every alias
passed to the constructor is registered — in particular an alias with
empty text, which is stored with the single term `""` (the result of
splitting the empty string) and a single hash. -/
theorem mkDomain_registers_empty_text (tm : TermModel) (forIngestion : Bool)
    (aliases : List Alias) (i : ℕ) (hi : i < aliases.length)
    (htext : (aliases.getD i defaultLexAlias).text = "") :
    (mkDomain aliases tm forIngestion).tokenizerAliases.length = aliases.length
    ∧ ((mkDomain aliases tm forIngestion).tokenizerAliases.getD i defaultAlias).text = ""
    ∧ ((mkDomain aliases tm forIngestion).tokenizerAliases.getD i defaultAlias).terms = [""]
    ∧ ((mkDomain aliases tm forIngestion).tokenizerAliases.getD i defaultAlias).hashes.length
        = 1 := by
  have hta : (mkDomain aliases tm forIngestion).tokenizerAliases = aliases.map (mkTokenizerAlias tm) := rfl
  have hget : (mkDomain aliases tm forIngestion).tokenizerAliases.getD i defaultAlias =
      mkTokenizerAlias tm (aliases.getD i defaultLexAlias) := by
    rw [hta, getD_map_of_lt (mkTokenizerAlias tm) aliases i hi defaultLexAlias defaultAlias]
  refine ⟨by rw [hta, List.length_map], ?_, ?_, ?_⟩
  · rw [hget]
    exact htext
  · rw [hget]
    show jsSplitWs (aliases.getD i defaultLexAlias).text = [""]
    rw [htext]
    decide
  · rw [hget]
    show (((jsSplitWs (aliases.getD i defaultLexAlias).text).map tm.stem).map tm.hashTerm).length = 1
    rw [htext]
    simp [jsSplitWs, splitWsGo]

/-- Witness for the amended C8 at a concrete one-alias domain. -/
theorem mkDomain_registers_empty_text_witness :
    (mkDomain [defaultLexAlias] tmW false).tokenizerAliases.length = [defaultLexAlias].length
    ∧ ((mkDomain [defaultLexAlias] tmW false).tokenizerAliases.getD 0 defaultAlias).text = ""
    ∧ ((mkDomain [defaultLexAlias] tmW false).tokenizerAliases.getD 0 defaultAlias).terms = [""]
    ∧ ((mkDomain [defaultLexAlias] tmW false).tokenizerAliases.getD 0 defaultAlias).hashes.length
        = 1 :=
  mkDomain_registers_empty_text tmW false [defaultLexAlias] 0 (by decide) (by decide)

/-- Membership in the union of the other domains' own terms: some
position `k` with running index `j + k` different from `i` owns the
fingerprint. -/
theorem mem_unionOthersAux (h : ℤ) :
    ∀ (ds : List LexDomain) (j i : ℕ),
      h ∈ unionOthersAux ds j i ↔
        ∃ k, k < ds.length ∧ j + k ≠ i ∧ h ∈ (ds.getD k emptyDomain).ownTerms := by
  intro ds
  induction ds with
  | nil =>
    intro j i
    simp [unionOthersAux]
  | cons d ds ih =>
    intro j i
    simp only [unionOthersAux, Finset.mem_union, ih (j + 1) i]
    constructor
    · intro hc
      rcases hc with hd | ⟨k, hk, hne, hmem⟩
      · by_cases hji : j = i
        · rw [if_pos hji] at hd
          simp at hd
        · rw [if_neg hji] at hd
          exact ⟨0, by simp, by omega, hd⟩
      · exact ⟨k + 1, by simpa using hk, by omega, by simpa using hmem⟩
    · intro hc
      rcases hc with ⟨k, hk, hne, hmem⟩
      cases k with
      | zero =>
        left
        rw [if_neg (by omega)]
        simpa using hmem
      | succ k =>
        right
        exact ⟨k, by simpa using hk, by omega, by simpa using hmem⟩

/-- The domain list produced by the ingest loop, position by position:
each entry is the original domain with its downstream terms added. -/
theorem lexIngestAux_fst (tm : TermModel) (nt : Finset ℤ) (all : List LexDomain) :
    ∀ (l : List LexDomain) (k : ℕ) (t : TokenizerState) (i : ℕ), i < l.length →
      ((lexIngestAux tm nt all (l.enumFrom k) t).1).getD i emptyDomain =
        addDownstreamTerms nt all (k + i) (l.getD i emptyDomain) := by
  intro l
  induction l with
  | nil =>
    intro k t i hi
    simp at hi
  | cons d l ih =>
    intro k t i hi
    cases i with
    | zero =>
      simp [List.enumFrom, lexIngestAux]
    | succ i =>
      have := ih (k + 1) (domainIngest tm (addDownstreamTerms nt all k d) t) i
        (by simpa using hi)
      simp only [List.enumFrom, lexIngestAux, List.getD_cons_succ]
      rw [this]
      congr 1
      omega

/-- C5: after Lexicon.ingest, an ingestion domain's isDownstreamTerm
holds at a fingerprint exactly when the term model tags it as a token or
number hash, or it is among the number parser's own hashed terms, or it
belongs to the own-term set of some other domain — so a fingerprint in
the domain's own terms is still downstream when another domain also owns
it. -/
theorem lexicon_downstream_iff (lx : Lexicon) (t : TokenizerState) (i : ℕ)
    (hi : i < lx.domains.length)
    (hing : (lx.domains.getD i emptyDomain).forIngestion = true) (h : ℤ) :
    (domainIsDownstreamTerm lx.termModel
        ((lexiconIngest lx t).1.domains.getD i emptyDomain) h = true) ↔
      (lx.termModel.isTokenHash h = true ∨ lx.termModel.isNumberHash h = true
        ∨ h ∈ lx.numberTerms
        ∨ ∃ j, j < lx.domains.length ∧ j ≠ i ∧
            h ∈ (lx.domains.getD j emptyDomain).ownTerms) := by
  have hdom : (lexiconIngest lx t).1.domains.getD i emptyDomain =
      addDownstreamTerms lx.numberTerms lx.domains i (lx.domains.getD i emptyDomain) := by
    show ((lexIngestAux lx.termModel lx.numberTerms lx.domains lx.domains.enum t).1).getD i
        emptyDomain = _
    have := lexIngestAux_fst lx.termModel lx.numberTerms lx.domains lx.domains 0 t i hi
    simpa [List.enum] using this
  rw [hdom]
  unfold addDownstreamTerms
  rw [if_pos hing]
  unfold domainIsDownstreamTerm
  simp only [Bool.or_eq_true, decide_eq_true_eq, Finset.mem_union]
  rw [mem_unionOthersAux h lx.domains 0 i]
  simp only [Nat.zero_add]
  tauto

/-- Witness for C5: the first domain of the two-domain lexicon, at the
fingerprint the second domain owns. -/
theorem lexicon_downstream_iff_witness :
    (domainIsDownstreamTerm lxW.termModel
        ((lexiconIngest lxW s0W).1.domains.getD 0 emptyDomain) 2 = true) ↔
      (lxW.termModel.isTokenHash 2 = true ∨ lxW.termModel.isNumberHash 2 = true
        ∨ (2 : ℤ) ∈ lxW.numberTerms
        ∨ ∃ j, j < lxW.domains.length ∧ j ≠ 0 ∧
            (2 : ℤ) ∈ (lxW.domains.getD j emptyDomain).ownTerms) :=
  lexicon_downstream_iff lxW s0W 0 (by decide) (by decide) 2

/-- `addPosting` appends the id at the looked-up key and changes no other
postings list. -/
theorem postingsAt_addPosting (P : List (ℤ × List ℕ)) (k : ℤ) (id : ℕ) (x : ℤ) :
    postingsAt (addPosting P k id) x =
      if x = k then postingsAt P x ++ [id] else postingsAt P x := by
  induction P with
  | nil =>
    by_cases hx : x = k
    · simp [postingsAt, addPosting, alookup, hx]
    · simp [postingsAt, addPosting, alookup, hx, Ne.symm hx]
  | cons p rest ih =>
    obtain ⟨k', v⟩ := p
    by_cases hk : k' = k
    · subst hk
      by_cases hx : x = k'
      · subst hx
        simp [postingsAt, addPosting, alookup]
      · simp [postingsAt, addPosting, alookup, hx, Ne.symm hx]
    · by_cases hx : x = k'
      · subst hx
        simp [postingsAt, addPosting, alookup, hk]
      · simp only [addPosting, if_neg hk]
        have hfind : ∀ (Q : List (ℤ × List ℕ)), postingsAt ((k', v) :: Q) x = postingsAt Q x := by
          intro Q
          simp [postingsAt, alookup, List.find?, Ne.symm hx, hx]
        rw [hfind, hfind, ih]

/-- The count of an id in a postings list after one `addPosting`. -/
theorem count_postingsAt_addPosting (P : List (ℤ × List ℕ)) (k : ℤ) (id : ℕ) (x : ℤ) (j : ℕ) :
    (postingsAt (addPosting P k id) x).count j =
      (postingsAt P x).count j + (if x = k ∧ j = id then 1 else 0) := by
  rw [postingsAt_addPosting]
  by_cases hx : x = k
  · rw [if_pos hx, List.count_append]
    by_cases hj : j = id
    · simp [hj, hx]
    · simp [hj, hx, List.count_singleton, Ne.symm hj]
  · simp [hx]

/-- The count of an id after folding `addPosting` over a hash list. -/
theorem count_postingsAt_foldl (id : ℕ) (j : ℕ) (x : ℤ) :
    ∀ (hs : List ℤ) (P : List (ℤ × List ℕ)),
      (postingsAt (hs.foldl (fun Q h => addPosting Q h id) P) x).count j =
        (postingsAt P x).count j + (if j = id then hs.count x else 0) := by
  intro hs
  induction hs with
  | nil =>
    intro P
    simp
  | cons h hs ih =>
    intro P
    simp only [List.foldl_cons]
    rw [ih, count_postingsAt_addPosting]
    by_cases hj : j = id
    · by_cases hx : x = h
      · simp [hj, hx, List.count_cons]
        omega
      · have : (h == x) = false := by
          simp [Ne.symm hx]
        simp [hj, hx, List.count_cons, this]
    · simp [hj, fun hc : x = h ∧ j = id => hj hc.2]

/-- One `addPosting` adds exactly one postings entry. -/
theorem totalPostings_addPosting (P : List (ℤ × List ℕ)) (k : ℤ) (id : ℕ) :
    totalPostings (addPosting P k id) = totalPostings P + 1 := by
  induction P with
  | nil => simp [totalPostings, addPosting]
  | cons p rest ih =>
    obtain ⟨k', v⟩ := p
    by_cases hk : k' = k
    · simp [totalPostings, addPosting, hk]
      omega
    · simp only [totalPostings, addPosting, if_neg hk, List.map_cons, List.sum_cons] at ih ⊢
      omega

/-- Folding `addPosting` over a hash list adds one entry per hash. -/
theorem totalPostings_foldl (id : ℕ) :
    ∀ (hs : List ℤ) (P : List (ℤ × List ℕ)),
      totalPostings (hs.foldl (fun Q h => addPosting Q h id) P) =
        totalPostings P + hs.length := by
  intro hs
  induction hs with
  | nil =>
    intro P
    simp
  | cons h hs ih =>
    intro P
    simp only [List.foldl_cons, List.length_cons]
    rw [ih, totalPostings_addPosting]
    omega

/-- Freshness is monotone in the bound. -/
theorem freshIds_mono {P : List (ℤ × List ℕ)} {n m : ℕ} (hP : FreshIds P n) (hnm : n ≤ m) :
    FreshIds P m :=
  fun p hp j hj => lt_of_lt_of_le (hP p hp j hj) hnm

/-- `addPosting` with a fresh id preserves freshness. -/
theorem freshIds_addPosting {P : List (ℤ × List ℕ)} {n : ℕ} (k : ℤ) {id : ℕ}
    (hP : FreshIds P n) (hid : id < n) : FreshIds (addPosting P k id) n := by
  induction P with
  | nil =>
    intro p hp j hj
    simp [addPosting] at hp
    rw [hp] at hj
    simp at hj
    omega
  | cons q rest ih =>
    obtain ⟨k', v⟩ := q
    have hrest : FreshIds rest n := fun p hp j hj => hP p (List.mem_cons_of_mem _ hp) j hj
    by_cases hk : k' = k
    · simp only [addPosting, if_pos hk]
      intro p hp j hj
      rcases List.mem_cons.mp hp with hph | hpr
      · rw [hph] at hj
        rcases List.mem_append.mp hj with hjv | hjid
        · exact hP (k', v) (List.mem_cons_self _ _) j hjv
        · simp at hjid
          omega
      · exact hrest p hpr j hj
    · simp only [addPosting, if_neg hk]
      intro p hp j hj
      rcases List.mem_cons.mp hp with hph | hpr
      · rw [hph] at hj
        exact hP (k', v) (List.mem_cons_self _ _) j hj
      · exact ih hrest p hpr j hj

/-- Folding `addPosting` with a fresh id preserves freshness. -/
theorem freshIds_foldl {n : ℕ} {id : ℕ} (hid : id < n) :
    ∀ (hs : List ℤ) {P : List (ℤ × List ℕ)}, FreshIds P n →
      FreshIds (hs.foldl (fun Q h => addPosting Q h id) P) n := by
  intro hs
  induction hs with
  | nil =>
    intro P hP
    exact hP
  | cons h hs ih =>
    intro P hP
    exact ih (freshIds_addPosting h hP hid)

/-- A fresh bound means an id at or above it never occurs. -/
theorem count_eq_zero_of_fresh {P : List (ℤ × List ℕ)} {n j : ℕ} (hP : FreshIds P n)
    (hj : n ≤ j) (x : ℤ) : (postingsAt P x).count j = 0 := by
  rcases hfind : alookup P x with _ | v
  · simp [postingsAt, hfind]
  · have hv : ∃ p ∈ P, p.2 = v := by
      unfold alookup at hfind
      rcases hfind2 : P.find? (fun p => p.1 = x) with _ | q
      · rw [hfind2] at hfind
        simp at hfind
      · rw [hfind2] at hfind
        simp at hfind
        exact ⟨q, List.mem_of_find?_eq_some hfind2, hfind⟩
    rcases hv with ⟨p, hp, hpv⟩
    rw [postingsAt, hfind]
    simp only [Option.getD_some]
    rw [List.count_eq_zero]
    intro hjv
    have := hP p hp j (hpv ▸ hjv)
    omega

/-- The fold of `addItemStep` changes no field other than the three maps,
and its postings are the fold of `addPosting` over the hashes. -/
theorem foldl_addItemStep_proj (al : TokenizerAlias) (id : ℕ) :
    ∀ (el : List (ℕ × ℤ)) (t : TokenizerState),
      (el.foldl (addItemStep al id) t).aliases = t.aliases
      ∧ (el.foldl (addItemStep al id) t).postings =
          ((el.map Prod.snd).foldl (fun Q h => addPosting Q h id) t.postings) := by
  intro el
  induction el with
  | nil =>
    intro t
    exact ⟨rfl, rfl⟩
  | cons ih' el ih =>
    intro t
    simp only [List.foldl_cons, List.map_cons]
    exact ⟨(ih _).1, (ih _).2⟩

/-- addItem appends the alias and folds `addPosting` over its hashes
with the newly assigned id. -/
theorem addItem_proj (s : TokenizerState) (al : TokenizerAlias) :
    (addItem s al).aliases = s.aliases ++ [al]
    ∧ (addItem s al).postings =
        (al.hashes.foldl (fun Q h => addPosting Q h s.aliases.length) s.postings) := by
  unfold addItem
  have h := foldl_addItemStep_proj al s.aliases.length al.hashes.enum
    { s with aliases := s.aliases ++ [al] }
  refine ⟨h.1, ?_⟩
  rw [h.2]
  congr 1
  exact List.enum_map_snd al.hashes

/-- One addItem step preserves the postings invariant. -/
theorem postingsInv_step {s : TokenizerState} {als : List TokenizerAlias}
    (hinv : PostingsInv s als) (al : TokenizerAlias) :
    PostingsInv (addItem s al) (als ++ [al]) := by
  obtain ⟨hal, hfresh, htot, hcount⟩ := hinv
  obtain ⟨hpal, hppost⟩ := addItem_proj s al
  have hid : s.aliases.length = als.length := by rw [hal]
  refine ⟨by rw [hpal, hal], ?_, ?_, ?_⟩
  · rw [hppost, hid]
    simp only [List.length_append, List.length_cons, List.length_nil]
    exact freshIds_foldl (by omega) al.hashes
      (freshIds_mono hfresh (by omega))
  · rw [hppost, totalPostings_foldl, htot]
    simp
  · intro i hi x
    rw [hppost, hid, count_postingsAt_foldl]
    simp only [List.length_append, List.length_cons, List.length_nil] at hi
    by_cases hival : i = als.length
    · rw [if_pos hival]
      rw [hival, count_eq_zero_of_fresh hfresh (le_refl _) x]
      have : (als ++ [al]).getD als.length defaultAlias = al := by
        rw [List.getD_eq_getElem?_getD, List.getElem?_append_right (le_refl _)]
        simp
      rw [this]
      omega
    · rw [if_neg hival]
      have hilt : i < als.length := by omega
      have : (als ++ [al]).getD i defaultAlias = als.getD i defaultAlias := by
        rw [List.getD_eq_getElem?_getD, List.getElem?_append_left hilt,
          List.getD_eq_getElem?_getD]
      rw [this, hcount i hilt x]
      omega

/-- C6: after any sequence of addItem calls on a fresh tokenizer, the
postings list of every fingerprint contains each alias's id once per
occurrence of the fingerprint in that alias's hashes, and the total
number of postings entries equals the sum of the hash counts over all
registered aliases. -/
theorem addItem_postings_invariant (itk : ℤ → Bool) (np : List ℤ → List NumberMatch)
    (als : List TokenizerAlias) :
    (∀ i, i < als.length → ∀ x : ℤ,
      (postingsAt (als.foldl addItem (initTokenizer itk np)).postings x).count i =
        (als.getD i defaultAlias).hashes.count x)
    ∧ totalPostings (als.foldl addItem (initTokenizer itk np)).postings =
        (als.map (fun a => a.hashes.length)).sum := by
  have hinv : PostingsInv (als.foldl addItem (initTokenizer itk np)) als := by
    induction als using List.list_reverse_induction with
    | base =>
      refine ⟨rfl, ?_, rfl, ?_⟩
      · intro p hp
        simp [initTokenizer] at hp
      · intro i hi
        simp at hi
    | ind als al ih =>
      rw [List.foldl_append]
      exact postingsInv_step ih al
  exact ⟨hinv.2.2.2, hinv.2.2.1⟩

/-- Witness for C6 on two concrete aliases sharing a fingerprint. -/
theorem addItem_postings_invariant_witness :
    ((postingsAt ([alW1, alW2].foldl addItem
        (initTokenizer (fun _ => false) (fun _ => []))).postings 7).count 0 =
      (([alW1, alW2].getD 0 defaultAlias).hashes.count 7))
    ∧ totalPostings ([alW1, alW2].foldl addItem
        (initTokenizer (fun _ => false) (fun _ => []))).postings =
        ([alW1, alW2].map (fun a => a.hashes.length)).sum
    ∧ ([alW1, alW2].getD 0 defaultAlias).hashes.count 7 = 2 :=
  ⟨(addItem_postings_invariant (fun _ => false) (fun _ => []) [alW1, alW2]).1 0 (by decide) 7,
   (addItem_postings_invariant (fun _ => false) (fun _ => []) [alW1, alW2]).2,
   by decide⟩

/-! ## Lemmas for the walker equivalence -/

/-- Congruence for `List.map` under pointwise agreement. -/
theorem mapCongr {α β : Type} {l : List α} {f g : α → β} (h : ∀ a ∈ l, f a = g a) :
    l.map f = l.map g := by
  induction l with
  | nil => rfl
  | cons x xs ih =>
    simp only [List.map_cons]
    rw [h x (List.mem_cons_self x xs), ih (fun a ha => h a (List.mem_cons_of_mem x ha))]

/-- Congruence for `List.filter` under pointwise agreement. -/
theorem filterCongr {α : Type} {l : List α} {p q : α → Bool} (h : ∀ a ∈ l, p a = q a) :
    l.filter p = l.filter q := by
  induction l with
  | nil => rfl
  | cons x xs ih =>
    simp only [List.filter_cons]
    rw [h x (List.mem_cons_self x xs), ih (fun a ha => h a (List.mem_cons_of_mem x ha))]

/-- Congruence for `List.filterMap` under pointwise agreement. -/
theorem filterMapCongr {α β : Type} {l : List α} {f g : α → Option β}
    (h : ∀ a ∈ l, f a = g a) : l.filterMap f = l.filterMap g := by
  induction l with
  | nil => rfl
  | cons x xs ih =>
    simp only [List.filterMap_cons]
    rw [h x (List.mem_cons_self x xs), ih (fun a ha => h a (List.mem_cons_of_mem x ha))]

/-- Congruence for `List.flatMap` under pointwise agreement. -/
theorem flatMapCongr {α β : Type} {l : List α} {f g : α → List β}
    (h : ∀ a ∈ l, f a = g a) : l.flatMap f = l.flatMap g := by
  induction l with
  | nil => rfl
  | cons x xs ih =>
    simp only [List.flatMap_cons]
    rw [h x (List.mem_cons_self x xs), ih (fun a ha => h a (List.mem_cons_of_mem x ha))]

/-- `insertDesc` never produces the empty list. -/
theorem insertDesc_ne_nil {α : Type} (x : ℚ × α) (l : List (ℚ × α)) :
    insertDesc x l ≠ [] := by
  cases l with
  | nil => simp [insertDesc]
  | cons z zs =>
    unfold insertDesc
    by_cases h : z.1 < x.1 <;> simp [h]

/-- The sort is empty exactly for the empty list. -/
theorem sortPairsDesc_eq_nil_iff {α : Type} (l : List (ℚ × α)) :
    sortPairsDesc l = [] ↔ l = [] := by
  cases l with
  | nil => simp [sortPairsDesc]
  | cons x xs =>
    simp only [sortPairsDesc, List.foldr_cons]
    constructor
    · intro h
      exact absurd h (insertDesc_ne_nil x _)
    · intro h
      exact absurd h (List.cons_ne_nil x xs)

/-- Membership through `insertDesc`. -/
theorem mem_insertDesc {α : Type} (x y : ℚ × α) (l : List (ℚ × α)) :
    y ∈ insertDesc x l ↔ y = x ∨ y ∈ l := by
  induction l with
  | nil => simp [insertDesc]
  | cons z zs ih =>
    unfold insertDesc
    by_cases h : z.1 < x.1
    · simp only [if_pos h, List.mem_cons]
    · simp only [if_neg h, List.mem_cons, ih]
      tauto

/-- The sort is a permutation membership-wise. -/
theorem mem_sortPairsDesc {α : Type} (y : ℚ × α) (l : List (ℚ × α)) :
    y ∈ sortPairsDesc l ↔ y ∈ l := by
  induction l with
  | nil => simp [sortPairsDesc]
  | cons x xs ih =>
    show y ∈ insertDesc x (sortPairsDesc xs) ↔ _
    rw [mem_insertDesc, ih, List.mem_cons]

/-- The head of the descending sort carries the greatest key. -/
theorem head_sortPairsDesc {α : Type} (l : List (ℚ × α)) :
    (sortPairsDesc l).head?.map Prod.fst = maxQ (l.map Prod.fst) := by
  induction l with
  | nil => rfl
  | cons x xs ih =>
    show (insertDesc x (sortPairsDesc xs)).head?.map Prod.fst = maxQ (x.1 :: xs.map Prod.fst)
    rcases hs : sortPairsDesc xs with _ | ⟨y, ys⟩
    · have hxs : xs = [] := (sortPairsDesc_eq_nil_iff xs).mp hs
      subst hxs
      simp [insertDesc, maxQ]
    · have hmax : maxQ (xs.map Prod.fst) = some y.1 := by
        rw [← ih, hs]
        rfl
      have hrhs : maxQ (x.1 :: xs.map Prod.fst) = some (max x.1 y.1) := by
        unfold maxQ
        rw [hmax]
      rw [hrhs]
      unfold insertDesc
      by_cases h : y.1 < x.1
      · rw [if_pos h]
        simp [max_eq_left (le_of_lt h)]
      · rw [if_neg h]
        simp [max_eq_right (not_lt.mp h)]

/-- Usable edges advance by at least one and at most `n` positions. -/
theorem edgeOK_toNat {e : Edge} {n : ℕ} (h : edgeOK e n = true) :
    1 ≤ e.length.toNat ∧ e.length.toNat ≤ n := by
  unfold edgeOK at h
  rw [Bool.and_eq_true, decide_eq_true_eq, decide_eq_true_eq] at h
  omega

/-- `bestScoreF` past the last position, at any fuel. -/
theorem bestScoreF_nil (g : ℕ) : bestScoreF g [] = some 0 := by
  cases g <;> rfl

/-- `dynPathsF` past the last position, at any fuel. -/
theorem dynPathsF_nil (g : ℕ) : dynPathsF g [] = [[]] := by
  cases g <;> rfl

/-- `bestScoreF` does not depend on the fuel once it covers the suffix
length. -/
theorem bestScoreF_irrel :
    ∀ (f : ℕ) (lat : List (List Edge)) (g : ℕ),
      lat.length ≤ f → lat.length ≤ g → bestScoreF f lat = bestScoreF g lat := by
  intro f
  induction f with
  | zero =>
    intro lat g hf _
    have hlat : lat = [] := List.length_eq_zero.mp (Nat.le_zero.mp hf)
    subst hlat
    rw [bestScoreF_nil, bestScoreF_nil]
  | succ f ihf =>
    intro lat g hf hg
    cases lat with
    | nil => rw [bestScoreF_nil, bestScoreF_nil]
    | cons edges rest =>
      obtain ⟨g', rfl⟩ : ∃ g', g = g' + 1 := by
        refine ⟨g - 1, ?_⟩
        simp only [List.length_cons] at hg
        omega
      simp only [bestScoreF]
      congr 1
      apply filterMapCongr
      intro e he
      have ht := edgeOK_toNat (List.mem_filter.mp he).2
      have h1 : ((edges :: rest).drop e.length.toNat).length ≤ f := by
        rw [List.length_drop]
        simp only [List.length_cons] at hf ⊢
        omega
      have h2 : ((edges :: rest).drop e.length.toNat).length ≤ g' := by
        rw [List.length_drop]
        simp only [List.length_cons] at hg ⊢
        omega
      rw [ihf _ g' h1 h2]

/-- Unfolding `bestScore` one position. -/
theorem bestScore_cons (edges : List Edge) (rest : List (List Edge)) :
    bestScore (edges :: rest) =
      maxQ ((edges.filter (fun e => edgeOK e (rest.length + 1))).filterMap
        (fun e => (bestScore ((edges :: rest).drop e.length.toNat)).map
          (fun b => e.score + b))) := by
  show bestScoreF (rest.length + 1) (edges :: rest) = _
  simp only [bestScoreF]
  congr 1
  apply filterMapCongr
  intro e he
  have ht := edgeOK_toNat (List.mem_filter.mp he).2
  have h1 : ((edges :: rest).drop e.length.toNat).length ≤ rest.length := by
    rw [List.length_drop]
    simp only [List.length_cons]
    omega
  rw [bestScoreF_irrel rest.length _ _ h1 (le_refl _)]
  rfl

/-- `dynPathsF` does not depend on the fuel once it covers the suffix
length. -/
theorem dynPathsF_irrel :
    ∀ (f : ℕ) (lat : List (List Edge)) (g : ℕ),
      lat.length ≤ f → lat.length ≤ g → dynPathsF f lat = dynPathsF g lat := by
  intro f
  induction f with
  | zero =>
    intro lat g hf _
    have hlat : lat = [] := List.length_eq_zero.mp (Nat.le_zero.mp hf)
    subst hlat
    rw [dynPathsF_nil, dynPathsF_nil]
  | succ f ihf =>
    intro lat g hf hg
    cases lat with
    | nil => rw [dynPathsF_nil, dynPathsF_nil]
    | cons edges rest =>
      obtain ⟨g', rfl⟩ : ∃ g', g = g' + 1 := by
        refine ⟨g - 1, ?_⟩
        simp only [List.length_cons] at hg
        omega
      simp only [dynPathsF]
      apply flatMapCongr
      intro p hp
      obtain ⟨e, he, rfl⟩ := List.mem_map.mp ((mem_sortPairsDesc p _).mp hp)
      have hok := (List.mem_filter.mp he).2
      rw [Bool.and_eq_true] at hok
      have ht := edgeOK_toNat hok.1
      have h1 : ((edges :: rest).drop e.length.toNat).length ≤ f := by
        rw [List.length_drop]
        simp only [List.length_cons] at hf ⊢
        omega
      have h2 : ((edges :: rest).drop e.length.toNat).length ≤ g' := by
        rw [List.length_drop]
        simp only [List.length_cons] at hg ⊢
        omega
      rw [ihf _ g' h1 h2]

/-- Unfolding `dynPaths` one position. -/
theorem dynPaths_cons (edges : List Edge) (rest : List (List Edge)) :
    dynPaths (edges :: rest) =
      (sortPairsDesc ((edges.filter (fun e => edgeOK e (rest.length + 1) &&
            (bestScore ((edges :: rest).drop e.length.toNat)).isSome)).map
          (fun e => (e.score + (bestScore ((edges :: rest).drop e.length.toNat)).getD 0,
            e)))).flatMap
        (fun p => (dynPaths ((edges :: rest).drop p.2.length.toNat)).map
          (fun q => p.2 :: q)) := by
  show dynPathsF (rest.length + 1) (edges :: rest) = _
  simp only [dynPathsF]
  apply flatMapCongr
  intro p hp
  obtain ⟨e, he, rfl⟩ := List.mem_map.mp ((mem_sortPairsDesc p _).mp hp)
  have hok := (List.mem_filter.mp he).2
  rw [Bool.and_eq_true] at hok
  have ht := edgeOK_toNat hok.1
  have h1 : ((edges :: rest).drop e.length.toNat).length ≤ rest.length := by
    rw [List.length_drop]
    simp only [List.length_cons]
    omega
  rw [dynPathsF_irrel rest.length _ _ h1 (le_refl _)]
  rfl

/-- The score of an extended path. -/
theorem pathScore_cons (e : Edge) (p : List Edge) :
    pathScore (e :: p) = e.score + pathScore p := by
  simp [pathScore]

/-- Filtering then keeping the defined images equals filtering on
definedness then mapping the defaulted value. -/
theorem filterMap_map_getD {α : Type} (p : α → Bool) (f : α → Option ℚ) (g : α → ℚ → ℚ)
    (l : List α) :
    (l.filter p).filterMap (fun a => (f a).map (g a)) =
      (l.filter (fun a => p a && (f a).isSome)).map (fun a => g a ((f a).getD 0)) := by
  induction l with
  | nil => rfl
  | cons x xs ih =>
    by_cases hp : p x
    · rcases hf : f x with _ | b
      · simp [List.filter_cons, hp, hf, List.filterMap_cons, ih]
      · simp [List.filter_cons, hp, hf, List.filterMap_cons, ih]
    · simp [List.filter_cons, hp, ih]

/-- `bestScore` rewritten over the key list the dynamic enumerator
sorts. -/
theorem bestScore_cons_keys (edges : List Edge) (rest : List (List Edge)) :
    bestScore (edges :: rest) =
      maxQ (((edges.filter (fun e => edgeOK e (rest.length + 1) &&
            (bestScore ((edges :: rest).drop e.length.toNat)).isSome)).map
          (fun e => (e.score + (bestScore ((edges :: rest).drop e.length.toNat)).getD 0,
            e))).map Prod.fst) := by
  rw [bestScore_cons,
    filterMap_map_getD (fun e => edgeOK e (rest.length + 1))
      (fun e => bestScore ((edges :: rest).drop e.length.toNat))
      (fun e b => e.score + b) edges]
  rw [List.map_map]
  rfl

/-- The best completion score of a suffix is the total score of the
first path the dynamic enumerator lists, and in particular a completion
exists exactly when the dynamic enumeration is non-empty. -/
theorem bestScore_eq_head_aux :
    ∀ (n : ℕ) (lat : List (List Edge)), lat.length ≤ n →
      bestScore lat = (dynPaths lat).head?.map pathScore := by
  intro n
  induction n with
  | zero =>
    intro lat hlat
    have h : lat = [] := List.length_eq_zero.mp (Nat.le_zero.mp hlat)
    subst h
    rfl
  | succ n ihn =>
    intro lat hlat
    cases lat with
    | nil => rfl
    | cons edges rest =>
      rw [bestScore_cons_keys, dynPaths_cons, ← head_sortPairsDesc]
      rcases hs : sortPairsDesc ((edges.filter (fun e => edgeOK e (rest.length + 1) &&
          (bestScore ((edges :: rest).drop e.length.toNat)).isSome)).map
        (fun e => (e.score + (bestScore ((edges :: rest).drop e.length.toNat)).getD 0, e)))
        with _ | ⟨q, qs⟩
      · rw [hs]
        simp
      · obtain ⟨e, he, hqe⟩ := List.mem_map.mp
          ((mem_sortPairsDesc q _).mp (hs ▸ List.mem_cons_self q qs))
        have hok := (List.mem_filter.mp he).2
        rw [Bool.and_eq_true] at hok
        have ht := edgeOK_toNat hok.1
        have hXlen : ((edges :: rest).drop e.length.toNat).length ≤ n := by
          rw [List.length_drop]
          simp only [List.length_cons] at hlat ⊢
          omega
        have hbs := ihn ((edges :: rest).drop e.length.toNat) hXlen
        rcases hdp : dynPaths ((edges :: rest).drop e.length.toNat) with _ | ⟨h0, hs0⟩
        · rw [hdp] at hbs
          simp at hbs
          rw [hbs] at hok
          simp at hok
        · subst hqe
          rw [hs, List.flatMap_cons, hdp]
          show some (e.score + (bestScore ((edges :: rest).drop e.length.toNat)).getD 0) =
            some (pathScore (e :: h0))
          rw [hbs, hdp]
          show some (e.score + pathScore h0) = some (pathScore (e :: h0))
          rw [pathScore_cons]

/-- The best completion score of a suffix is the total score of the
first dynamically enumerated path. -/
theorem bestScore_eq_headPath (lat : List (List Edge)) :
    bestScore lat = (dynPaths lat).head?.map pathScore :=
  bestScore_eq_head_aux lat.length lat (le_refl _)

/-- Reading the table of suffix enumerations at an in-bounds offset. -/
theorem allSuffixes_map_getD {β : Type} (f : List (List Edge) → β) (d : β) :
    ∀ (xs : List (List Edge)) (j : ℕ), j ≤ xs.length →
      ((allSuffixes xs).map f).getD j d = f (xs.drop j) := by
  intro xs
  induction xs with
  | nil =>
    intro j hj
    have h : j = 0 := Nat.le_zero.mp hj
    subst h
    rfl
  | cons x xs ih =>
    intro j hj
    cases j with
    | zero => rfl
    | succ j =>
      show (((x :: xs) :: allSuffixes xs).map f).getD (j + 1) d = f (xs.drop j)
      simp only [List.map_cons, List.getD_cons_succ]
      exact ih j (by simpa using hj)

/-- Dropping through a cons by a positive offset. -/
theorem drop_cons_of_pos (edges : List Edge) (rest : List (List Edge)) {m : ℕ}
    (hm : 1 ≤ m) : (edges :: rest).drop m = rest.drop (m - 1) := by
  obtain ⟨m', rfl⟩ : ∃ m', m = m' + 1 := ⟨m - 1, by omega⟩
  simp

/-- The static table is exactly the dynamic enumeration of every
suffix. -/
theorem staticTable_eq (lat : List (List Edge)) :
    staticTable lat = (allSuffixes lat).map dynPaths := by
  induction lat with
  | nil => rfl
  | cons edges rest ih =>
    show staticTable (edges :: rest) = dynPaths (edges :: rest) :: (allSuffixes rest).map dynPaths
    simp only [staticTable]
    rw [ih]
    congr 1
    rw [dynPaths_cons]
    have hPe : ∀ e : Edge, edgeOK e (rest.length + 1) = true →
        ((allSuffixes rest).map dynPaths).getD (e.length.toNat - 1) [] =
          dynPaths ((edges :: rest).drop e.length.toNat) := by
      intro e hok
      have ht := edgeOK_toNat hok
      rw [drop_cons_of_pos edges rest ht.1]
      exact allSuffixes_map_getD dynPaths [] rest (e.length.toNat - 1) (by omega)
    have hfilter :
        edges.filter (fun e => edgeOK e (rest.length + 1) &&
            !(((allSuffixes rest).map dynPaths).getD (e.length.toNat - 1) []).isEmpty)
        = edges.filter (fun e => edgeOK e (rest.length + 1) &&
            (bestScore ((edges :: rest).drop e.length.toNat)).isSome) := by
      apply filterCongr
      intro e _
      by_cases hok : edgeOK e (rest.length + 1)
      · simp only [hok, Bool.true_and]
        rw [hPe e hok, bestScore_eq_headPath]
        rcases dynPaths ((edges :: rest).drop e.length.toNat) with _ | ⟨h0, t0⟩ <;> simp
      · simp [hok]
    rw [hfilter]
    have hkeyed :
        (edges.filter (fun e => edgeOK e (rest.length + 1) &&
            (bestScore ((edges :: rest).drop e.length.toNat)).isSome)).map
          (fun e => (e.score +
            pathScore ((((allSuffixes rest).map dynPaths).getD (e.length.toNat - 1) []).headD []),
            e))
        = (edges.filter (fun e => edgeOK e (rest.length + 1) &&
            (bestScore ((edges :: rest).drop e.length.toNat)).isSome)).map
          (fun e => (e.score + (bestScore ((edges :: rest).drop e.length.toNat)).getD 0,
            e)) := by
      apply mapCongr
      intro e he
      have hokk := (List.mem_filter.mp he).2
      rw [Bool.and_eq_true] at hokk
      have h2 := hokk.2
      rw [bestScore_eq_headPath] at h2
      rcases hdp : dynPaths ((edges :: rest).drop e.length.toNat) with _ | ⟨h0, t0⟩
      · rw [hdp] at h2
        simp at h2
      · rw [hPe e hokk.1, bestScore_eq_headPath, hdp]
        simp
    rw [hkeyed]
    apply flatMapCongr
    intro p hp
    obtain ⟨e, he, hqe⟩ := List.mem_map.mp ((mem_sortPairsDesc p _).mp hp)
    have hokk := (List.mem_filter.mp he).2
    rw [Bool.and_eq_true] at hokk
    subst hqe
    show (((allSuffixes rest).map dynPaths).getD (e.length.toNat - 1) []).map (fun q => e :: q)
      = (dynPaths ((edges :: rest).drop e.length.toNat)).map (fun q => e :: q)
    rw [hPe e hokk.1]

/-- C7: for every lattice, the dynamic enumerator (completions computed
on demand) and the static enumerator (precomputed bottom-up table) list
exactly the same complete paths in the same order. -/
theorem dynamic_static_walkers_agree (lat : List (List Edge)) :
    dynPaths lat = staticPaths lat := by
  unfold staticPaths
  rw [staticTable_eq]
  cases lat with
  | nil => rfl
  | cons edges rest => rfl

end TokenFlow
